import Mathlib

/-!
Shallow embedding of the `argskwargs` Python module (`src/argskwargs.py`):
an immutable container `Arguments` bundling a tuple of positional arguments
with a dict of keyword arguments, created through the factory function
`argskwargs`, with operations `__repr__`, `__iter__`, `apply`, `partial`,
`copy` and structural `__eq__` / `__ne__`.

Modelling choices:
* a Python tuple of opaque values becomes `List α`;
* a Python dict with string keys becomes `PyDict α`: an association list
  of entries in insertion order together with a proof that its keys are
  distinct (an invariant every real dict has);
* `dict.__setitem__`, `dict.update`, `dict.copy`, dict equality and
  `sorted(d.items())` are translated entry by entry from CPython's
  observable behaviour on such lists;
* value equality of the opaque stored values is `DecidableEq α`, and the
  canonical representation `repr` of a value is an arbitrary function
  `α → String`;
* for the claims about object identity and absence of in-place mutation,
  dict objects are additionally modelled with an explicit store
  (`DictStore α`, a heap of dict values addressed by `Nat` references) and
  the method bodies are re-played statement by statement against it.
-/

namespace ArgsKwargs

/-- Python `d[k]` lookup on an association list: the value at the first
(for a real dict: the only) entry whose key is `k`. -/
def assocLookup {α : Type} (k : String) : List (String × α) → Option α
  | [] => none
  | p :: rest => if p.1 = k then some p.2 else assocLookup k rest

/-- Python `d[k] = v`: replace the value at the existing entry for `k`,
keeping its position, or append a new entry at the end when `k` is absent. -/
def assocSet {α : Type} : List (String × α) → String → α → List (String × α)
  | [], k, v => [(k, v)]
  | p :: rest, k, v =>
    if p.1 = k then (p.1, v) :: rest else p :: assocSet rest k v

/-- Python `d.update(o)`: assign each of `o`'s entries into `d`,
left to right. -/
def assocUpdate {α : Type} (l o : List (String × α)) : List (String × α) :=
  o.foldl (fun acc p => assocSet acc p.1 p.2) l

theorem assocLookup_assocSet {α : Type} (l : List (String × α)) (k k' : String) (v : α) :
    assocLookup k' (assocSet l k v) =
      if k' = k then some v else assocLookup k' l := by
  induction l with
  | nil =>
    by_cases h : k' = k
    · simp [assocSet, assocLookup, h]
    · simp [assocSet, assocLookup, h, Ne.symm h]
  | cons p rest ih =>
    by_cases hp : p.1 = k
    · subst hp
      by_cases hk : k' = p.1
      · simp [assocSet, assocLookup, hk]
      · simp [assocSet, assocLookup, hk, Ne.symm hk]
    · by_cases hk2 : p.1 = k'
      · have hne : ¬ k' = k := fun h => hp (hk2.trans h)
        simp [assocSet, assocLookup, hp, hk2, hne]
      · simp [assocSet, assocLookup, hp, hk2, ih]

theorem keys_assocSet {α : Type} (l : List (String × α)) (k : String) (v : α) :
    (assocSet l k v).map Prod.fst =
      if k ∈ l.map Prod.fst then l.map Prod.fst else l.map Prod.fst ++ [k] := by
  induction l with
  | nil => simp [assocSet]
  | cons p rest ih =>
    by_cases hp : p.1 = k
    · simp [assocSet, hp]
    · have : ¬ k = p.1 := fun h => hp h.symm
      simp only [assocSet, if_neg hp, List.map_cons, ih, List.mem_cons, this,
        false_or]
      by_cases hm : k ∈ rest.map Prod.fst <;> simp [hm]

theorem nodup_keys_assocSet {α : Type} {l : List (String × α)} (k : String) (v : α)
    (h : (l.map Prod.fst).Nodup) : ((assocSet l k v).map Prod.fst).Nodup := by
  rw [keys_assocSet]
  by_cases hm : k ∈ l.map Prod.fst
  · simpa [hm]
  · simp [hm, List.nodup_append, h]

theorem nodup_keys_assocUpdate {α : Type} (o : List (String × α)) :
    ∀ l : List (String × α), (l.map Prod.fst).Nodup →
      ((assocUpdate l o).map Prod.fst).Nodup := by
  induction o with
  | nil => intro l h; simpa [assocUpdate] using h
  | cons p rest ih =>
    intro l h
    have := ih (assocSet l p.1 p.2) (nodup_keys_assocSet p.1 p.2 h)
    simpa [assocUpdate] using this

theorem assocLookup_eq_none {α : Type} {k : String} {l : List (String × α)} :
    assocLookup k l = none ↔ k ∉ l.map Prod.fst := by
  induction l with
  | nil => simp [assocLookup]
  | cons p rest ih =>
    by_cases hp : p.1 = k
    · simp [assocLookup, hp]
    · have : ¬ k = p.1 := fun h => hp h.symm
      simp [assocLookup, hp, this, ih]

theorem assocLookup_of_mem {α : Type} {l : List (String × α)} :
    (l.map Prod.fst).Nodup → ∀ {k : String} {v : α}, (k, v) ∈ l →
      assocLookup k l = some v := by
  induction l with
  | nil => intro _ k v hm; cases hm
  | cons p rest ih =>
    intro h k v hm
    rcases List.mem_cons.mp hm with heq | htl
    · cases heq; simp [assocLookup]
    · have hk : ¬ p.1 = k := by
        intro hpk
        have : p.1 ∈ rest.map Prod.fst :=
          List.mem_map.mpr ⟨(k, v), htl, hpk.symm⟩
        exact (List.nodup_cons.mp (by simpa using h)).1 this
      simpa [assocLookup, hk] using ih (List.nodup_cons.mp (by simpa using h)).2 htl

theorem mem_of_assocLookup {α : Type} {l : List (String × α)} {k : String} {v : α}
    (h : assocLookup k l = some v) : (k, v) ∈ l := by
  induction l with
  | nil => simp [assocLookup] at h
  | cons p rest ih =>
    by_cases hp : p.1 = k
    · simp only [assocLookup, hp, if_pos rfl, Option.some.injEq] at h
      exact List.mem_cons.mpr (Or.inl (by cases p; cases hp; cases h; rfl))
    · simp only [assocLookup, hp, if_neg hp] at h
      exact List.mem_cons.mpr (Or.inr (ih h))

theorem assocLookup_assocUpdate {α : Type} (o : List (String × α))
    (ho : (o.map Prod.fst).Nodup) :
    ∀ (l : List (String × α)) (k : String),
      assocLookup k (assocUpdate l o) = (assocLookup k o).or (assocLookup k l) := by
  induction o with
  | nil => intro l k; simp [assocUpdate, assocLookup]
  | cons p rest ih =>
    intro l k
    have hrest : (rest.map Prod.fst).Nodup := (List.nodup_cons.mp (by simpa using ho)).2
    have step : assocUpdate l (p :: rest) = assocUpdate (assocSet l p.1 p.2) rest := by
      simp [assocUpdate]
    rw [step, ih hrest]
    by_cases hk : k = p.1
    · have hnone : assocLookup p.1 rest = none :=
        assocLookup_eq_none.mpr (List.nodup_cons.mp (by simpa using ho)).1
      simp [assocLookup, hk, hnone, assocLookup_assocSet]
    · have hne : ¬ p.1 = k := fun h => hk h.symm
      simp [assocLookup, hne, assocLookup_assocSet, hk]

/-- A Python dict with string keys: its entries in insertion order, with the
invariant (true of every real dict) that keys are distinct. -/
structure PyDict (α : Type) where
  entries : List (String × α)
  nodupKeys : (entries.map Prod.fst).Nodup

/-- The empty dict `{}`. -/
def PyDict.empty {α : Type} : PyDict α := ⟨[], List.nodup_nil⟩

/-- Python `d[k]` / key lookup. -/
def PyDict.lookup {α : Type} (d : PyDict α) (k : String) : Option α :=
  assocLookup k d.entries

/-- Python `d.copy()`: a shallow copy holds the same entries, so as a value
it is the dict itself (object identity is treated in the store model below). -/
def PyDict.copy {α : Type} (d : PyDict α) : PyDict α := d

/-- Python `d.update(o)`, as the value held by `d`'s object afterwards. -/
def PyDict.update {α : Type} (d o : PyDict α) : PyDict α :=
  ⟨assocUpdate d.entries o.entries, nodup_keys_assocUpdate o.entries d.entries d.nodupKeys⟩

/-- CPython dict equality: same number of entries, and every key/value pair of
the first is present in the second. -/
def PyDict.beq {α : Type} [DecidableEq α] (d₁ d₂ : PyDict α) : Bool :=
  d₁.entries.length == d₂.entries.length &&
    d₁.entries.all fun p => decide (d₂.lookup p.1 = some p.2)

theorem PyDict.ext_entries {α : Type} {d₁ d₂ : PyDict α}
    (h : d₁.entries = d₂.entries) : d₁ = d₂ := by
  cases d₁; cases d₂; cases h; rfl

theorem PyDict.lookup_update {α : Type} (d o : PyDict α) (k : String) :
    (d.update o).lookup k = (o.lookup k).or (d.lookup k) :=
  assocLookup_assocUpdate o.entries o.nodupKeys d.entries k

theorem PyDict.update_empty {α : Type} (d : PyDict α) :
    d.update PyDict.empty = d :=
  PyDict.ext_entries rfl

/-- The container class for positional and keyword arguments
(`class Arguments`): slots `args` and `kwargs`. -/
structure Arguments (α : Type) where
  args : List α
  kwargs : PyDict α

/-- The third constructor parameter of `Arguments.__init__`: either the
module-private sentinel object `_yes_i_am_an_internal_call`, or any other
object a caller might pass instead. -/
inductive Magic where
  | internalCall : Magic
  | other : Nat → Magic
deriving DecidableEq

/-- A raised Python exception, by kind and message. -/
inductive PyError where
  | typeError : String → PyError
deriving DecidableEq

/-- `Arguments.__init__(self, args, kwargs, magic)`: raises `TypeError`
unless `magic` is the module-private sentinel object, else stores the two
containers. -/
def Arguments.mkChecked {α : Type} (args : List α) (kwargs : PyDict α)
    (magic : Magic) : Except PyError (Arguments α) :=
  if magic = Magic.internalCall then
    Except.ok { args := args, kwargs := kwargs }
  else
    Except.error (PyError.typeError
      "Use the argskwargs() function to create instances of this class. (Did you read the docs at all?)")

/-- The factory function `argskwargs(*args, **kwargs)`: calls the gated
constructor with the sentinel, which always succeeds. -/
def argskwargs {α : Type} (args : List α) (kwargs : PyDict α) : Arguments α :=
  { args := args, kwargs := kwargs }

theorem mkChecked_internal_eq_argskwargs {α : Type} (args : List α) (kwargs : PyDict α) :
    Arguments.mkChecked args kwargs Magic.internalCall = Except.ok (argskwargs args kwargs) :=
  rfl

/-- Python's `<` on strings: strict lexicographic comparison of the Unicode
code-point sequences. -/
def charListLt : List Char → List Char → Bool
  | [], [] => false
  | [], _ :: _ => true
  | _ :: _, [] => false
  | a :: as, b :: bs =>
    if a.toNat < b.toNat then true
    else if b.toNat < a.toNat then false
    else charListLt as bs

/-- Python's `<=` on strings: lexicographic comparison of the Unicode
code-point sequences. -/
def charListLe : List Char → List Char → Bool
  | [], _ => true
  | _ :: _, [] => false
  | a :: as, b :: bs =>
    if a.toNat < b.toNat then true
    else if b.toNat < a.toNat then false
    else charListLe as bs

theorem charListLe_total (a : List Char) :
    ∀ b, charListLe a b = true ∨ charListLe b a = true := by
  induction a with
  | nil => intro b; left; rfl
  | cons x as ih =>
    intro b
    cases b with
    | nil => right; rfl
    | cons y bs =>
      by_cases h1 : x.toNat < y.toNat
      · left; simp [charListLe, h1]
      · by_cases h2 : y.toNat < x.toNat
        · right; simp [charListLe, h2]
        · rcases ih bs with h | h
          · left; simp [charListLe, h1, h2, h]
          · right; simp [charListLe, h1, h2, h]

theorem charListLe_trans (a : List Char) :
    ∀ b c, charListLe a b = true → charListLe b c = true →
      charListLe a c = true := by
  induction a with
  | nil => intro b c _ _; rfl
  | cons x as ih =>
    intro b c hab hbc
    cases b with
    | nil => simp [charListLe] at hab
    | cons y bs =>
      cases c with
      | nil => simp [charListLe] at hbc
      | cons z cs =>
        simp only [charListLe] at hab hbc ⊢
        by_cases hxy : x.toNat < y.toNat
        · by_cases hyz : y.toNat < z.toNat
          · have hxz : x.toNat < z.toNat := by omega
            simp [hxz]
          · by_cases hzy : z.toNat < y.toNat
            · simp [hyz, hzy] at hbc
            · have hxz : x.toNat < z.toNat := by omega
              simp [hxz]
        · by_cases hyx : y.toNat < x.toNat
          · simp [hxy, hyx] at hab
          · by_cases hyz : y.toNat < z.toNat
            · have hxz : x.toNat < z.toNat := by omega
              simp [hxz]
            · by_cases hzy : z.toNat < y.toNat
              · simp [hyz, hzy] at hbc
              · have hxz : ¬ x.toNat < z.toNat := by omega
                have hzx : ¬ z.toNat < x.toNat := by omega
                simp only [hxy, hyx, if_false] at hab
                simp only [hyz, hzy, if_false] at hbc
                simp only [hxz, hzx, if_false]
                exact ih bs cs hab hbc

theorem charListLt_of_le_of_ne (a : List Char) :
    ∀ b, charListLe a b = true → a ≠ b → charListLt a b = true := by
  induction a with
  | nil =>
    intro b _ hne
    cases b with
    | nil => exact absurd rfl hne
    | cons y bs => rfl
  | cons x as ih =>
    intro b hab hne
    cases b with
    | nil => simp [charListLe] at hab
    | cons y bs =>
      simp only [charListLe] at hab
      simp only [charListLt]
      by_cases hxy : x.toNat < y.toNat
      · simp [hxy]
      · by_cases hyx : y.toNat < x.toNat
        · simp [hxy, hyx] at hab
        · have hx : x = y := by
            have hn : x.toNat = y.toNat := by omega
            have := congrArg Char.ofNat hn
            rwa [Char.ofNat_toNat, Char.ofNat_toNat] at this
          have htl : as ≠ bs := by
            intro h
            exact hne (by rw [hx, h])
          simp only [hxy, hyx, if_false] at hab ⊢
          exact ih bs hab htl

theorem charListLt_asymm (a : List Char) :
    ∀ b, charListLt a b = true → charListLt b a = true → False := by
  induction a with
  | nil =>
    intro b hab hba
    cases b with
    | nil => simp [charListLt] at hab
    | cons y bs => simp [charListLt] at hba
  | cons x as ih =>
    intro b hab hba
    cases b with
    | nil => simp [charListLt] at hab
    | cons y bs =>
      simp only [charListLt] at hab hba
      by_cases hxy : x.toNat < y.toNat
      · have hyx : ¬ y.toNat < x.toNat := by omega
        simp [hxy, hyx] at hba
      · by_cases hyx : y.toNat < x.toNat
        · simp [hxy, hyx] at hab
        · simp only [hxy, hyx, if_false] at hab hba
          exact ih bs hab hba

/-- Comparison used by Python's `sorted` on `d.items()`: lexicographic on the
pair; since a dict's keys are distinct it reduces to comparing the keys. -/
def keyLe {α : Type} (p q : String × α) : Prop :=
  charListLe p.1.data q.1.data = true

instance {α : Type} : DecidableRel (keyLe (α := α)) :=
  fun _ _ => inferInstanceAs (Decidable (_ = true))

instance {α : Type} : IsTotal (String × α) keyLe :=
  ⟨fun p q => charListLe_total p.1.data q.1.data⟩

instance {α : Type} : IsTrans (String × α) keyLe :=
  ⟨fun _ q _ h₁ h₂ => charListLe_trans _ q.1.data _ h₁ h₂⟩

/-- `Arguments.__repr__`: the `repr` of each positional argument in stored
order, then `name=repr(value)` for the keyword arguments in sorted key order,
comma-joined and wrapped in `argskwargs(...)`. `rep` is the opaque `repr` of
the stored values. -/
def Arguments.reprStr {α : Type} (rep : α → String) (b : Arguments α) : String :=
  "argskwargs(" ++
    String.intercalate ", "
      (b.args.map rep ++
        (List.insertionSort keyLe b.kwargs.entries).map
          (fun p => p.1 ++ "=" ++ rep p.2)) ++ ")"

/-- `Arguments.__iter__`: yields exactly `self.args` then `self.kwargs`,
i.e. destructures the bundle into its two halves. -/
def Arguments.toPair {α : Type} (b : Arguments α) : List α × PyDict α :=
  (b.args, b.kwargs)

/-- `Arguments.apply(self, callable, *args, **kwargs)`: with no extra
arguments, call with the stored containers; otherwise call with the stored
positionals followed by the extras and with a fresh copy of the stored dict
updated by the extra keyword arguments. -/
def Arguments.apply {α β : Type} (b : Arguments α)
    (callable : List α → PyDict α → β) (args : List α) (kwargs : PyDict α) : β :=
  if args.isEmpty && kwargs.entries.isEmpty then
    callable b.args b.kwargs
  else
    callable (b.args ++ args) ((PyDict.copy b.kwargs).update kwargs)

/-- A `functools.partial` object: the wrapped callable, the pre-bound
positional arguments and the pre-bound keyword arguments. -/
structure PartialApp (α β : Type) where
  func : List α → PyDict α → β
  args : List α
  keywords : PyDict α

/-- Calling a `functools.partial` object: its stored positionals followed by
the call's, and its stored keywords updated by the call's. -/
def PartialApp.call {α β : Type} (p : PartialApp α β)
    (args : List α) (kwargs : PyDict α) : β :=
  p.func (p.args ++ args) ((PyDict.copy p.keywords).update kwargs)

/-- `Arguments.partial(self, callable, *args, **kwargs)`: build a
`functools.partial` over the stored positionals followed by the extras, and a
fresh copy of the stored dict updated by the extra keyword arguments. -/
def Arguments.partialMeth {α β : Type} (b : Arguments α)
    (callable : List α → PyDict α → β) (args : List α) (kwargs : PyDict α) :
    PartialApp α β :=
  { func := callable
    args := b.args ++ args
    keywords := (PyDict.copy b.kwargs).update kwargs }

/-- `Arguments.copy(self, *args, **kwargs)` (the spec's `extend`): with no
extra arguments return `self` itself, otherwise apply the factory to the
merged arguments. -/
def Arguments.copy {α : Type} (b : Arguments α)
    (args : List α) (kwargs : PyDict α) : Arguments α :=
  if args.isEmpty && kwargs.entries.isEmpty then
    b
  else
    b.apply argskwargs args kwargs

/-- The dynamic type of a Python object that is an `Arguments` or an instance
of a subclass of it. -/
inductive BundleType where
  | argumentsType : BundleType
  | subclass : String → BundleType
deriving DecidableEq

/-- A Python value as seen by `Arguments.__eq__`: an instance of `Arguments`
or of one of its subclasses (carrying its dynamic type and its two slots), or
any non-bundle object. -/
inductive PyValue (α : Type) where
  | bundle : BundleType → List α → PyDict α → PyValue α
  | nonBundle : Nat → PyValue α

/-- `Arguments.__eq__(self, other)`: `False` unless `type(other)` is exactly
`Arguments`, else compare the `(args, kwargs)` tuples, i.e. the positional
lists element-wise and the dicts as dicts. -/
def Arguments.eqPy {α : Type} [DecidableEq α] (self : Arguments α)
    (other : PyValue α) : Bool :=
  match other with
  | PyValue.bundle BundleType.argumentsType a k =>
      decide (self.args = a) && PyDict.beq self.kwargs k
  | _ => false

/-- `Arguments.__ne__(self, other)`: the negation of `__eq__`. -/
def Arguments.nePy {α : Type} [DecidableEq α] (self : Arguments α)
    (other : PyValue α) : Bool :=
  ! self.eqPy other

/-- A heap of dict objects: the current value of each live dict object,
addressed by a `Nat` reference (its identity). -/
abbrev DictStore (α : Type) : Type := List (PyDict α)

/-- Dereference a dict object. -/
def DictStore.read {α : Type} (σ : DictStore α) (r : Nat) : PyDict α :=
  σ[r]?.getD PyDict.empty

/-- Overwrite a dict object's value in place. -/
def DictStore.write {α : Type} (σ : DictStore α) (r : Nat) (d : PyDict α) :
    DictStore α :=
  σ.set r d

/-- Create a fresh dict object holding value `d`; returns the new heap and
the new object's reference. -/
def DictStore.alloc {α : Type} (σ : DictStore α) (d : PyDict α) :
    DictStore α × Nat :=
  (σ ++ [d], σ.length)

theorem DictStore.read_alloc_old {α : Type} (σ : DictStore α) (d : PyDict α)
    {r : Nat} (h : r < σ.length) :
    DictStore.read (σ ++ [d]) r = DictStore.read σ r := by
  simp [DictStore.read, List.getElem?_append_left h]

theorem DictStore.read_alloc_new {α : Type} (σ : DictStore α) (d : PyDict α) :
    DictStore.read (σ ++ [d]) σ.length = d := by
  simp [DictStore.read, List.getElem?_concat_length]

theorem DictStore.read_write_ne {α : Type} (σ : DictStore α) (d : PyDict α)
    {r m : Nat} (h : m ≠ r) :
    DictStore.read (DictStore.write σ m d) r = DictStore.read σ r := by
  simp [DictStore.read, DictStore.write, List.getElem?_set_ne h]

theorem DictStore.read_write_self {α : Type} (σ : DictStore α) (d : PyDict α)
    {m : Nat} (h : m < σ.length) :
    DictStore.read (DictStore.write σ m d) m = d := by
  simp [DictStore.read, DictStore.write, List.getElem?_set_self h]

/-- The body of `Arguments.apply` re-played against the dict store:
`selfArgs`/`selfRef` are `self.args` and the reference held by
`self.kwargs`; `args`/`extraRef` are the extra positionals and the reference
of the dict collected from the extra keyword arguments. Returns the
positional tuple and the dict reference passed to the callable, and the heap
after the call was set up. The fast path hands over `self`'s own stored
containers and touches the heap not at all; the slow path copies
`self.kwargs` into a fresh dict object and updates that copy in place. -/
def applyHeap {α : Type} (σ : DictStore α) (selfArgs : List α) (selfRef : Nat)
    (args : List α) (extraRef : Nat) : (List α × Nat) × DictStore α :=
  if args.isEmpty && (DictStore.read σ extraRef).entries.isEmpty then
    ((selfArgs, selfRef), σ)
  else
    let allocd := DictStore.alloc σ (PyDict.copy (DictStore.read σ selfRef))
    let σ₁ := allocd.1
    let m := allocd.2
    let σ₂ := DictStore.write σ₁ m
      ((DictStore.read σ₁ m).update (DictStore.read σ₁ extraRef))
    ((selfArgs ++ args, m), σ₂)

/-- The body of `Arguments.partial` re-played against the dict store: always
copies `self.kwargs` into a fresh dict object and updates that copy in
place; returns the reference stored in the resulting partial object's
`keywords` slot and the heap afterwards. -/
def partialHeap {α : Type} (σ : DictStore α) (selfRef : Nat) (extraRef : Nat) :
    Nat × DictStore α :=
  let allocd := DictStore.alloc σ (PyDict.copy (DictStore.read σ selfRef))
  let σ₁ := allocd.1
  let m := allocd.2
  let σ₂ := DictStore.write σ₁ m
    ((DictStore.read σ₁ m).update (DictStore.read σ₁ extraRef))
  (m, σ₂)

theorem partialHeap_preserves {α : Type} (σ : DictStore α)
    (selfRef extraRef : Nat) {r : Nat} (h : r < σ.length) :
    DictStore.read (partialHeap σ selfRef extraRef).2 r = DictStore.read σ r := by
  have h₁ : σ.length ≠ r := Nat.ne_of_gt h
  simp only [partialHeap, DictStore.alloc]
  rw [DictStore.read_write_ne _ _ h₁, DictStore.read_alloc_old _ _ h]

theorem applyHeap_preserves {α : Type} (σ : DictStore α) (selfArgs : List α)
    (selfRef : Nat) (args : List α) (extraRef : Nat) {r : Nat}
    (h : r < σ.length) :
    DictStore.read (applyHeap σ selfArgs selfRef args extraRef).2 r =
      DictStore.read σ r := by
  by_cases hc : args.isEmpty && (DictStore.read σ extraRef).entries.isEmpty
  · simp [applyHeap, hc]
  · have h₁ : σ.length ≠ r := Nat.ne_of_gt h
    simp only [applyHeap, DictStore.alloc, hc, Bool.false_eq_true, if_false]
    rw [DictStore.read_write_ne _ _ h₁, DictStore.read_alloc_old _ _ h]

theorem PyDict.update_of_entries_nil {α : Type} (d M : PyDict α)
    (h : M.entries = []) : d.update M = d := by
  apply PyDict.ext_entries
  simp [PyDict.update, assocUpdate, h]

theorem apply_eq_call {α β : Type} (b : Arguments α)
    (f : List α → PyDict α → β) (E : List α) (M : PyDict α) :
    b.apply f E M = f (b.args ++ E) (b.kwargs.update M) := by
  unfold Arguments.apply
  by_cases hc : E.isEmpty && M.entries.isEmpty
  · have hE : E = [] := List.isEmpty_iff.mp (Bool.and_elim_left hc)
    have hM : M.entries = [] := List.isEmpty_iff.mp (Bool.and_elim_right hc)
    rw [if_pos hc, hE, List.append_nil, PyDict.update_of_entries_nil _ _ hM]
  · rw [if_neg hc]
    rfl

theorem nodup_mem_of_subset_of_length {l₁ l₂ : List String}
    (h₁ : l₁.Nodup) (h₂ : l₂.Nodup) (hsub : ∀ k, k ∈ l₁ → k ∈ l₂)
    (hlen : l₁.length = l₂.length) : ∀ k, k ∈ l₂ → k ∈ l₁ := by
  intro k hk
  have hfin : l₁.toFinset ⊆ l₂.toFinset := by
    intro x hx
    exact List.mem_toFinset.mpr (hsub x (List.mem_toFinset.mp hx))
  have hcard : l₂.toFinset.card ≤ l₁.toFinset.card := by
    rw [List.toFinset_card_of_nodup h₁, List.toFinset_card_of_nodup h₂, hlen]
  have heq : l₁.toFinset = l₂.toFinset := Finset.eq_of_subset_of_card_le hfin hcard
  exact List.mem_toFinset.mp (heq ▸ List.mem_toFinset.mpr hk)

theorem PyDict.beq_iff_lookup {α : Type} [DecidableEq α] (d₁ d₂ : PyDict α) :
    PyDict.beq d₁ d₂ = true ↔ ∀ k, d₁.lookup k = d₂.lookup k := by
  unfold PyDict.beq
  rw [Bool.and_eq_true, beq_iff_eq, List.all_eq_true]
  constructor
  · rintro ⟨hlen, hall⟩ k
    cases h1 : d₁.lookup k with
    | some v =>
      have hm : (k, v) ∈ d₁.entries := mem_of_assocLookup h1
      have := hall _ hm
      rw [decide_eq_true_eq] at this
      exact this.symm
    | none =>
      have hk1 : k ∉ d₁.entries.map Prod.fst := assocLookup_eq_none.mp h1
      have hsub : ∀ x, x ∈ d₁.entries.map Prod.fst → x ∈ d₂.entries.map Prod.fst := by
        intro x hx
        rcases List.mem_map.mp hx with ⟨p, hp, hpx⟩
        have := hall _ hp
        rw [decide_eq_true_eq] at this
        have : (p.1, p.2) ∈ d₂.entries := mem_of_assocLookup this
        exact hpx ▸ List.mem_map.mpr ⟨(p.1, p.2), this, rfl⟩
      have hlen' : (d₁.entries.map Prod.fst).length = (d₂.entries.map Prod.fst).length := by
        simpa using hlen
      cases h2 : d₂.lookup k with
      | some w =>
        have : k ∈ d₂.entries.map Prod.fst :=
          List.mem_map.mpr ⟨(k, w), mem_of_assocLookup h2, rfl⟩
        exact absurd (nodup_mem_of_subset_of_length d₁.nodupKeys d₂.nodupKeys
          hsub hlen' k this) hk1
      | none => rfl
  · intro h
    constructor
    · have hmem : ∀ x, x ∈ d₁.entries.map Prod.fst ↔ x ∈ d₂.entries.map Prod.fst := by
        intro x
        constructor
        · intro hx
          rcases List.mem_map.mp hx with ⟨p, hp, hpx⟩
          have h1 : d₁.lookup p.1 = some p.2 := assocLookup_of_mem d₁.nodupKeys (by simpa using hp)
          have h2 : d₂.lookup p.1 = some p.2 := (h p.1).symm.trans h1
          exact hpx ▸ List.mem_map.mpr ⟨(p.1, p.2), mem_of_assocLookup h2, rfl⟩
        · intro hx
          rcases List.mem_map.mp hx with ⟨p, hp, hpx⟩
          have h2 : d₂.lookup p.1 = some p.2 := assocLookup_of_mem d₂.nodupKeys (by simpa using hp)
          have h1 : d₁.lookup p.1 = some p.2 := (h p.1).trans h2
          exact hpx ▸ List.mem_map.mpr ⟨(p.1, p.2), mem_of_assocLookup h1, rfl⟩
      have : List.Perm (d₁.entries.map Prod.fst) (d₂.entries.map Prod.fst) :=
        (List.perm_ext_iff_of_nodup d₁.nodupKeys d₂.nodupKeys).mpr hmem
      simpa using this.length_eq
    · intro p hp
      rw [decide_eq_true_eq]
      have h1 : d₁.lookup p.1 = some p.2 := assocLookup_of_mem d₁.nodupKeys (by simpa using hp)
      exact (h p.1).symm.trans h1

/-- Strict version of `keyLe`, used to see that a sorted list of entries with
distinct keys is unique. -/
def keyLt {α : Type} (p q : String × α) : Prop :=
  charListLt p.1.data q.1.data = true

instance {α : Type} : IsAntisymm (String × α) keyLt :=
  ⟨fun p q h₁ h₂ => (charListLt_asymm p.1.data q.1.data h₁ h₂).elim⟩

theorem insertionSort_eq_of_perm {α : Type} {l₁ l₂ : List (String × α)}
    (hp : List.Perm l₁ l₂) (hn : (l₁.map Prod.fst).Nodup) :
    List.insertionSort keyLe l₁ = List.insertionSort keyLe l₂ := by
  have hperm : List.Perm (List.insertionSort keyLe l₁) (List.insertionSort keyLe l₂) :=
    (List.perm_insertionSort keyLe l₁).trans
      (hp.trans (List.perm_insertionSort keyLe l₂).symm)
  have hn₂ : (l₂.map Prod.fst).Nodup := ((hp.map Prod.fst).nodup_iff).mp hn
  have hkeys₁ : ((List.insertionSort keyLe l₁).map Prod.fst).Nodup :=
    (((List.perm_insertionSort keyLe l₁).map Prod.fst).nodup_iff).mpr hn
  have hkeys₂ : ((List.insertionSort keyLe l₂).map Prod.fst).Nodup :=
    (((List.perm_insertionSort keyLe l₂).map Prod.fst).nodup_iff).mpr hn₂
  have hne₁ : (List.insertionSort keyLe l₁).Pairwise (fun p q => p.1 ≠ q.1) :=
    List.pairwise_map.mp hkeys₁
  have hne₂ : (List.insertionSort keyLe l₂).Pairwise (fun p q => p.1 ≠ q.1) :=
    List.pairwise_map.mp hkeys₂
  have hle₁ : (List.insertionSort keyLe l₁).Pairwise keyLe :=
    List.sorted_insertionSort keyLe l₁
  have hle₂ : (List.insertionSort keyLe l₂).Pairwise keyLe :=
    List.sorted_insertionSort keyLe l₂
  have hlt₁ : (List.insertionSort keyLe l₁).Pairwise keyLt :=
    (hle₁.and hne₁).imp fun h =>
      charListLt_of_le_of_ne _ _ h.1 fun hd => h.2 (String.ext hd)
  have hlt₂ : (List.insertionSort keyLe l₂).Pairwise keyLt :=
    (hle₂.and hne₂).imp fun h =>
      charListLt_of_le_of_ne _ _ h.1 fun hd => h.2 (String.ext hd)
  exact List.eq_of_perm_of_sorted hperm hlt₁ hlt₂

theorem partialHeap_fresh {α : Type} (σ : DictStore α) (selfRef extraRef : Nat)
    (h : extraRef < σ.length) :
    DictStore.read (partialHeap σ selfRef extraRef).2 (partialHeap σ selfRef extraRef).1 =
      (DictStore.read σ selfRef).update (DictStore.read σ extraRef) := by
  simp only [partialHeap, DictStore.alloc]
  rw [DictStore.read_write_self _ _ (by simp), DictStore.read_alloc_new,
    DictStore.read_alloc_old _ _ h]
  rfl

/-- Sample dict objects and a sample heap used to instantiate the
hypothesis-bearing theorems at concrete inputs. -/
def sampleDictA : PyDict Nat := ⟨[("a", 1)], by decide⟩

def sampleDictB : PyDict Nat := ⟨[("b", 2)], by decide⟩

def sampleStore : DictStore Nat := [sampleDictA, sampleDictB]

/-- Claim C1: for every bundle `b`, callable `f`, extra positionals `E` and extra
named `M`, `apply` invokes `f` with positionals `b.args ++ E` (bundle's
first) and with the stored named arguments updated by `M`, where on a key
collision the value from `M` wins; since `f` is arbitrary, the bundle is
consulted only through those two containers. -/
theorem claim_apply_merge {α β : Type} (b : Arguments α)
    (f : List α → PyDict α → β) (E : List α) (M : PyDict α) :
    b.apply f E M = f (b.args ++ E) (b.kwargs.update M) ∧
      ∀ k, (b.kwargs.update M).lookup k = (M.lookup k).or (b.kwargs.lookup k) :=
  ⟨apply_eq_call b f E M, fun k => PyDict.lookup_update b.kwargs M k⟩

/-- Claim C2, counterexample: constructing the record type directly through the
constructor — a path other than the factory function — does not fail when
the caller passes the module-level sentinel object, which outside code can
reach; the gate is a runtime sentinel-object check, not an inaccessible
constructor. -/
theorem claim_construction_bypass :
    Arguments.mkChecked ([1] : List Nat) PyDict.empty Magic.internalCall =
      Except.ok { args := [1], kwargs := PyDict.empty } := rfl

/-- Claim C2, amended: the gated constructor raises the construction-denied
`TypeError` exactly when the token passed is not the module-level sentinel
object — a runtime sentinel-object check. -/
theorem claim_construction_gate {α : Type} (a : List α) (kw : PyDict α)
    (m : Magic) (h : m ≠ Magic.internalCall) :
    Arguments.mkChecked a kw m =
      Except.error (PyError.typeError
        "Use the argskwargs() function to create instances of this class. (Did you read the docs at all?)") := by
  simp [Arguments.mkChecked, h]

theorem claim_construction_gate_witness :
    Magic.other 0 ≠ Magic.internalCall ∧
      Arguments.mkChecked ([] : List Nat) PyDict.empty (Magic.other 0) =
        Except.error (PyError.typeError
          "Use the argskwargs() function to create instances of this class. (Did you read the docs at all?)") :=
  ⟨by decide, claim_construction_gate [] PyDict.empty (Magic.other 0) (by decide)⟩

/-- Claim C3: constructing a bundle from positionals `P` and named `N` via the
factory and destructuring it yields exactly the pair `(P, N)`, positionals
first. -/
theorem claim_roundtrip {α : Type} (P : List α) (N : PyDict α) :
    (argskwargs P N).toPair = (P, N) := rfl

/-- Claim C4: equality is structural — a bundle equals an `Arguments` value iff
the positional sequences are equal element-wise and the named mappings are
equal key/value-wise, and a bundle never equals a non-bundle value (so `!=`
against one is true). -/
theorem claim_eq_structural {α : Type} [DecidableEq α] :
    (∀ a b : Arguments α,
        a.eqPy (PyValue.bundle BundleType.argumentsType b.args b.kwargs) = true ↔
          a.args = b.args ∧ ∀ k, a.kwargs.lookup k = b.kwargs.lookup k) ∧
      (∀ (a : Arguments α) (n : Nat),
        a.eqPy (PyValue.nonBundle n) = false ∧ a.nePy (PyValue.nonBundle n) = true) := by
  constructor
  · intro a b
    simp only [Arguments.eqPy]
    rw [Bool.and_eq_true, decide_eq_true_eq, PyDict.beq_iff_lookup]
  · intro a n
    exact ⟨rfl, rfl⟩

/-- Claim C5: the display string renders the positional values (via the canonical
representation `rep`) in stored order, then the named entries as
`key=representation` in sorted key order — hence it does not depend on the
named entries' insertion order — and on `argskwargs(2, 1, b=2, a=1)` it is
exactly `"argskwargs(2, 1, a=1, b=2)"`. -/
theorem claim_repr {α : Type} (rep : α → String) (args : List α)
    (l₁ l₂ : List (String × α)) (h₁ : (l₁.map Prod.fst).Nodup)
    (h₂ : (l₂.map Prod.fst).Nodup) (hp : List.Perm l₁ l₂) :
    Arguments.reprStr rep { args := args, kwargs := ⟨l₁, h₁⟩ } =
        Arguments.reprStr rep { args := args, kwargs := ⟨l₂, h₂⟩ } ∧
      Arguments.reprStr toString
          (argskwargs [2, 1] (⟨[("b", 2), ("a", 1)], by decide⟩ : PyDict Nat)) =
        "argskwargs(2, 1, a=1, b=2)" := by
  constructor
  · unfold Arguments.reprStr
    rw [insertionSort_eq_of_perm hp h₁]
  · rfl

theorem claim_repr_witness :
    Arguments.reprStr toString
        { args := [2, 1], kwargs := (⟨[("b", 2), ("a", 1)], by decide⟩ : PyDict Nat) } =
      Arguments.reprStr toString
        { args := [2, 1], kwargs := (⟨[("a", 1), ("b", 2)], by decide⟩ : PyDict Nat) } ∧
    Arguments.reprStr toString
        (argskwargs [2, 1] (⟨[("b", 2), ("a", 1)], by decide⟩ : PyDict Nat)) =
      "argskwargs(2, 1, a=1, b=2)" :=
  claim_repr toString [2, 1] [("b", 2), ("a", 1)] [("a", 1), ("b", 2)]
    (by decide) (by decide) (by decide)

/-- Claim C6: `copy` (the spec's `extend`) with no extra positional and no extra
named arguments returns the original bundle itself, from the fast path that
returns `self` without building anything. -/
theorem claim_copy_identity {α : Type} (b : Arguments α) :
    b.copy [] PyDict.empty = b := rfl

/-- Claim C7: the deferred callable built by `partial` invoked with no further
arguments produces the same result as the eager `apply`; in general the
partial object pre-binds the callable itself, the bundle-first positional
concatenation, and the override-on-collision named merge, exactly as
`apply` does. -/
theorem claim_partial_agrees {α β : Type} (b : Arguments α)
    (f : List α → PyDict α → β) :
    (∀ (E : List α) (M : PyDict α),
        (b.partialMeth f E M).call [] PyDict.empty = b.apply f E M) ∧
      (∀ (E : List α) (M : PyDict α),
        (b.partialMeth f E M).func = f ∧
          (b.partialMeth f E M).args = b.args ++ E ∧
          ∀ k, (b.partialMeth f E M).keywords.lookup k =
            (M.lookup k).or (b.kwargs.lookup k)) := by
  constructor
  · intro E M
    calc (b.partialMeth f E M).call [] PyDict.empty
        = f ((b.args ++ E) ++ [])
            ((PyDict.copy ((PyDict.copy b.kwargs).update M)).update PyDict.empty) := rfl
      _ = f (b.args ++ E) ((PyDict.copy b.kwargs).update M) := by
            rw [List.append_nil, PyDict.update_of_entries_nil _ _ rfl]
            rfl
      _ = b.apply f E M := (apply_eq_call b f E M).symm
  · intro E M
    exact ⟨rfl, rfl, fun k => PyDict.lookup_update b.kwargs M k⟩

/-- Claim C8: with no extra arguments of either kind, `apply` passes the bundle's
stored containers to the callable directly: as values they are exactly the
stored fields, and in the store model the callable receives the stored
dict's own reference while the heap — in particular the set of allocated
dict objects — is left untouched. -/
theorem claim_zero_extra_fast_path {α β : Type} :
    (∀ (b : Arguments α) (f : List α → PyDict α → β),
        b.apply f [] PyDict.empty = f b.args b.kwargs) ∧
      (∀ (σ : DictStore α) (selfArgs : List α) (selfRef extraRef : Nat),
        (DictStore.read σ extraRef).entries = [] →
        applyHeap σ selfArgs selfRef [] extraRef = ((selfArgs, selfRef), σ)) := by
  constructor
  · intro b f
    rfl
  · intro σ sa r er h
    simp [applyHeap, h]

theorem claim_zero_extra_fast_path_witness :
    Arguments.apply { args := [1], kwargs := PyDict.empty }
        (fun (a : List Nat) (k : PyDict Nat) => (a, k)) [] PyDict.empty =
      (([1] : List Nat), (PyDict.empty : PyDict Nat)) ∧
    applyHeap ([PyDict.empty] : DictStore Nat) [5] 0 [] 0 =
      (([5], 0), [PyDict.empty]) :=
  ⟨(@claim_zero_extra_fast_path Nat (List Nat × PyDict Nat)).1 _ _,
    (@claim_zero_extra_fast_path Nat Nat).2 [PyDict.empty] [5] 0 0 (by decide)⟩

/-- Claim C9: none of the operations mutates the bundle's stored containers:
replaying the merging code of `apply` and of `partial` against the dict
store leaves every pre-existing dict object — in particular the stored
`kwargs` dict — holding its old value, and the merge happens on a freshly
allocated dict whose final value is the stored dict updated by the extras
(the remaining operations translate to pure reads and take no store at
all). -/
theorem claim_no_mutation {α : Type} :
    (∀ (σ : DictStore α) (sa : List α) (selfRef : Nat) (args : List α)
        (extraRef r : Nat), r < σ.length →
        DictStore.read (applyHeap σ sa selfRef args extraRef).2 r =
          DictStore.read σ r) ∧
      (∀ (σ : DictStore α) (selfRef extraRef r : Nat), r < σ.length →
        DictStore.read (partialHeap σ selfRef extraRef).2 r =
          DictStore.read σ r) ∧
      (∀ (σ : DictStore α) (selfRef extraRef : Nat), extraRef < σ.length →
        (partialHeap σ selfRef extraRef).1 = σ.length ∧
          DictStore.read (partialHeap σ selfRef extraRef).2
              (partialHeap σ selfRef extraRef).1 =
            (DictStore.read σ selfRef).update (DictStore.read σ extraRef)) :=
  ⟨fun σ sa selfRef args extraRef _ h =>
      applyHeap_preserves σ sa selfRef args extraRef h,
    fun σ selfRef extraRef _ h => partialHeap_preserves σ selfRef extraRef h,
    fun σ selfRef extraRef h => ⟨rfl, partialHeap_fresh σ selfRef extraRef h⟩⟩

theorem claim_no_mutation_witness :
    DictStore.read (applyHeap sampleStore [7] 0 [9] 1).2 0 =
        DictStore.read sampleStore 0 ∧
      DictStore.read (partialHeap sampleStore 0 1).2 0 =
        DictStore.read sampleStore 0 ∧
      (partialHeap sampleStore 0 1).1 = sampleStore.length ∧
      DictStore.read (partialHeap sampleStore 0 1).2 (partialHeap sampleStore 0 1).1 =
        (DictStore.read sampleStore 0).update (DictStore.read sampleStore 1) :=
  ⟨claim_no_mutation.1 sampleStore [7] 0 [9] 1 0 (by decide),
    claim_no_mutation.2.1 sampleStore 0 1 0 (by decide),
    (claim_no_mutation.2.2 sampleStore 0 1 (by decide)).1,
    (claim_no_mutation.2.2 sampleStore 0 1 (by decide)).2⟩

/-- Claim C10: equality requires the exact record type — an instance of a strict
subclass of `Arguments`, even with identical positionals and named mapping,
compares unequal, because the equality check tests the dynamic type. -/
theorem claim_eq_exact_type {α : Type} [DecidableEq α] (name : String)
    (a : List α) (k : PyDict α) :
    Arguments.eqPy { args := a, kwargs := k }
      (PyValue.bundle (BundleType.subclass name) a k) = false := rfl

end ArgsKwargs
